import Mathlib

/-!
Verification of the `CreateStore` class from `src/index.ts` of the
react-map-store repository.

The development shallowly embeds the store in Lean:

* JavaScript runtime values are modelled by the inductive `JVal`
  (`undefined`, `null`, booleans, numbers, strings, plain objects as
  ordered association lists of fields, and arrays).  Numbers are
  modelled as integers; no claim depends on floating-point behaviour.
* The backing `Map` (string keys, insertion ordered, unique keys) is an
  association list together with `mget` / `mset` / `mdelete`, whose
  semantics match `Map.get` / `Map.set` / `Map.delete`.
* A `Set` of callbacks is a duplicate-free ordered list of callback
  identifiers (`Nat`), with `setAddNat` matching `Set.add`.
* Paths (`keyof TMap | Path<TMap>`) are modelled by `PathArg`: either a
  bare string key or a `JPath` (a string top-level key, as imposed by
  the TypeScript type `keyof TMap`, followed by string/number
  segments).
* Operations that JavaScript strict mode would abort with a thrown
  `TypeError` (for example assigning a property on a primitive) are
  modelled with `Option`, `none` standing for the exception.  The
  store code never mutates before such a throw, so all-or-nothing
  results are observationally faithful.
* Notification scheduling (`startTransition`) defers callback delivery
  but does not change which callbacks are delivered; the emitted
  synchronisation calls are recorded in an explicit `SyncEvent` list,
  and the batch computed by `syncItem` / `syncItems` / `syncMap` is
  reified as the duplicate-free list of callback identifiers that
  `batchedUpdate` would invoke.
* The memoisation caches (`pathCache`, `nestedFallbackValueCache`) are
  omitted: they only cache pure results and never change the computed
  value while the fallback source is unchanged.
* The in-place mutation behaviour of `update` on nested paths (claim
  about copy-on-write) is modelled separately with an explicit heap of
  addressed objects in the `HeapModel` namespace, because object
  identity is not observable in a tree model.
-/

namespace MapStore

/-- Association list lookup with the semantics of `Map.get` (first, and
in a well-formed map the only, binding wins). -/
def mget {κ α : Type} [DecidableEq κ] : List (κ × α) → κ → Option α
  | [], _ => none
  | (k', v) :: rest, k => if k' = k then some v else mget rest k

/-- Association list insertion with the semantics of `Map.set`: replace
the binding in place if the key is present, otherwise append it. -/
def mset {κ α : Type} [DecidableEq κ] : List (κ × α) → κ → α → List (κ × α)
  | [], k, v => [(k, v)]
  | (k', v') :: rest, k, v =>
      if k' = k then (k, v) :: rest else (k', v') :: mset rest k v

/-- Association list deletion with the semantics of `Map.delete`. -/
def mdelete {κ α : Type} [DecidableEq κ] (l : List (κ × α)) (k : κ) : List (κ × α) :=
  l.filter (fun p => p.1 ≠ k)

/-- JavaScript runtime values (tree view, object identity not tracked). -/
inductive JVal where
  | jundefined
  | jnull
  | jbool (b : Bool)
  | num (n : Int)
  | str (s : String)
  | obj (fields : List (String × JVal))
  | arr (elems : List JVal)

/-- Path segments.  The TypeScript `Path` type allows string keys and
numeric array indices. -/
inductive Seg where
  | str (s : String)
  | num (n : Nat)
deriving DecidableEq

/-- Stringification `String(segment)` used by `pathToString` and by
property access on plain objects. -/
def Seg.toKey : Seg → String
  | .str s => s
  | .num n => toString n

/-- Path with at least one segment; the TypeScript type `Path<TMap>`
forces the first segment to be a `keyof TMap`, hence a string. -/
structure JPath where
  top : String
  rest : List Seg
deriving DecidableEq

/-- The union type `keyof TMap | Path<TMap>` that `get`, `set`, `update`
and the sync functions accept. -/
inductive PathArg where
  | key (k : String)
  | path (p : JPath)
deriving DecidableEq

/-- Segment list of a path argument (`pathArray` in the source:
`Array.isArray(path) ? path : [path]`). -/
def PathArg.toSegs : PathArg → List Seg
  | .key k => [.str k]
  | .path p => .str p.top :: p.rest

/-- Top-level key of a path argument (`pathArray[0] as keyof TMap`). -/
def PathArg.topKey : PathArg → String
  | .key k => k
  | .path p => p.top

/-- Segments after the top-level key. -/
def PathArg.restSegs : PathArg → List Seg
  | .key _ => []
  | .path p => p.rest

/-- Dot joining of already stringified segments, as done by
`pathToString`: a separator strictly between consecutive segments. -/
def joinDots : List String → String
  | [] => ""
  | [s] => s
  | s :: rest => s ++ "." ++ joinDots rest

/-- Canonical string identity of a key or path (`pathToString`). -/
def pathToString (a : PathArg) : String :=
  joinDots (a.toSegs.map Seg.toKey)

/-- Stringified segment array of a key or path (`pathToStringArray`;
the memoisation cache is omitted as it only caches this pure result). -/
def pathToStringArray (a : PathArg) : List String :=
  a.toSegs.map Seg.toKey

/-- Truthiness of a JavaScript value (`if (x)`), for the values the
model represents.  `NaN` is not modelled. -/
def jsTruthy : JVal → Bool
  | .jundefined => false
  | .jnull => false
  | .jbool b => b
  | .num n => n != 0
  | .str s => s ≠ ""
  | .obj _ => true
  | .arr _ => true

/-- Parses a string that is the canonical decimal representation of an
array index, mirroring how JavaScript arrays treat `a["3"]` the same as
`a[3]` (non-canonical forms such as `"03"` are ordinary properties). -/
def digitsVal : List Char → Option Nat
  | [] => some 0
  | c :: rest =>
      if 48 ≤ c.toNat ∧ c.toNat ≤ 57 then
        match digitsVal rest with
        | some n => some (n * 10 ^ rest.length + (c.toNat - 48))
        | none => none
      else none

/-- Canonical array index denoted by a segment, if any. -/
def segIndex : Seg → Option Nat
  | .num n => some n
  | .str s =>
      match digitsVal s.data with
      | some n => if toString n = s then some n else none
      | none => none

/-- Non-throwing property read `v[seg]` for a base value that is not
`null`/`undefined`.  Reads on primitives yield `undefined`; exotic
array properties (such as `length`) are outside the model. -/
def jsGet : JVal → Seg → JVal
  | .obj fields, seg => (mget fields seg.toKey).getD .jundefined
  | .arr elems, seg =>
      match segIndex seg with
      | some i => (elems.get? i).getD .jundefined
      | none => .jundefined
  | _, _ => .jundefined

/-- List update at an index, padding with `undefined` when assigning
past the end, as JavaScript array index assignment does. -/
def listSetPad (l : List JVal) (i : Nat) (v : JVal) : List JVal :=
  if i < l.length then l.set i v
  else l ++ List.replicate (i - l.length) .jundefined ++ [v]

/-- Strict-mode property assignment `v[seg] = x`.  Returns `none` where
JavaScript throws a `TypeError` (assignment on a primitive, `null` or
`undefined`); assignment of a non-index property on an array is outside
the model. -/
def jsSet : JVal → Seg → JVal → Option JVal
  | .obj fields, seg, v => some (.obj (mset fields seg.toKey v))
  | .arr elems, seg, v =>
      match segIndex seg with
      | some i => some (.arr (listSetPad elems i v))
      | none => none
  | _, _, _ => none

/-- Own enumerable fields produced by an object spread `{...v}`: a
plain object contributes its fields, an array and a string contribute
index-keyed entries, primitives and `null`/`undefined` contribute
nothing. -/
def spreadFields : JVal → List (String × JVal)
  | .obj fields => fields
  | .arr elems => elems.enum.map (fun p => (toString p.1, p.2))
  | .str s => s.data.enum.map (fun p => (toString p.1, .str (toString p.2)))
  | _ => []

/-- Field-by-field object spread merge `{...base, ...override}`:
later keys override earlier ones in place, new keys are appended. -/
def mergeFields (base override : List (String × JVal)) : List (String × JVal) :=
  override.foldl (fun acc kv => mset acc kv.1 kv.2) base

/-- Store mode, `type?: 'map' | 'object'` of the constructor. -/
inductive StoreType where
  | map
  | object
deriving DecidableEq

/-- Synchronisation calls emitted by the mutating operations: the three
notification channels.  `itemSync`/`itemsSync` are the path-scoped item
channel entry points, `mapSync` is the full item-channel sweep used by
`syncMap`, and `sizeSync`/`keysSync` are the two global channels. -/
inductive SyncEvent where
  | itemSync (a : PathArg)
  | itemsSync (ks : List PathArg)
  | mapSync
  | sizeSync
  | keysSync
deriving DecidableEq

/-- State of a `CreateStore` instance.  Callbacks are identified by
natural numbers; every `Set<() => void>` becomes a duplicate-free
ordered list.  `itemSubscriberPaths` mirrors the key set of
`itemSubscribers` exactly as the two fields are maintained in the
source.  The devtools connection and the memoisation caches are
omitted (the caches only memoise pure functions). -/
structure Store where
  map : List (String × JVal) := []
  itemSubscribers : List (String × List Nat) := []
  itemSubscriberPaths : List String := []
  sizeSubscribers : List Nat := []
  keysSubscribers : List Nat := []
  fallbackValue : Option JVal := none
  type : StoreType := .map
  initialState : List (String × JVal) := []

/-- Constructor: seeds the backing map, captures the initial snapshot,
and stores fallback and mode; all registries start empty. -/
def Store.init (initialMap : List (String × JVal)) (fallbackValue : Option JVal)
    (type : StoreType) : Store :=
  { map := initialMap
    fallbackValue := fallbackValue
    type := type
    initialState := initialMap }

/-- Fallback for a bare top-level key (`getFallbackValue`): in object
mode with a truthy fallback value, the per-key entry of the fallback
object with the whole fallback as a second resort (the source uses
`??`, which falls through on both `undefined` and `null`); otherwise
the fallback value itself (or `undefined` when none was configured). -/
def Store.getFallbackValue (st : Store) (k : String) : JVal :=
  match st.fallbackValue with
  | none => .jundefined
  | some fb =>
      match st.type with
      | .object =>
          if jsTruthy fb then
            match jsGet fb (.str k) with
            | .jundefined => fb
            | .jnull => fb
            | v => v
          else fb
      | .map => fb

/-- Iteration of `getNestedFallbackValue` beginning at index 1 of the
path: at each step a `null`/`undefined` current value short-circuits to
`undefined`, otherwise the next segment is read off the current value
(the source distinguishes numeric indexing on arrays, which `jsGet`
already performs). -/
def nestedFallbackGo : JVal → List Seg → JVal
  | fb, [] => fb
  | fb, seg :: rest =>
      match fb with
      | .jundefined => .jundefined
      | .jnull => .jundefined
      | fb => nestedFallbackGo (jsGet fb seg) rest

/-- Nested fallback resolution (`getNestedFallbackValue`; memoisation
cache omitted).  Note that the loop starts at index 1 but the walk
starts at the root of the fallback tree, so the top-level key of the
path is never consumed. -/
def Store.getNestedFallbackValue (st : Store) (p : JPath) : JVal :=
  match st.type with
  | .object =>
      match st.fallbackValue with
      | none => .jundefined
      | some fb => if jsTruthy fb then nestedFallbackGo fb p.rest else .jundefined
  | .map => .jundefined

/-- Loop of `getScoped` over the segments after the top-level key:
`null`/`undefined` intermediates short-circuit to the nested fallback,
and a final `undefined` result also resolves to the nested fallback. -/
def Store.getScopedGo (st : Store) (p : JPath) : JVal → List Seg → JVal
  | v, [] =>
      match v with
      | .jundefined => st.getNestedFallbackValue p
      | v => v
  | v, seg :: rest =>
      match v with
      | .jundefined => st.getNestedFallbackValue p
      | .jnull => st.getNestedFallbackValue p
      | v => st.getScopedGo p (jsGet v seg) rest

/-- Path-scoped read (`getScoped`). -/
def Store.getScoped (st : Store) (p : JPath) : JVal :=
  match mget st.map p.top with
  | none => st.getNestedFallbackValue p
  | some v => st.getScopedGo p v p.rest

/-- Public read (`get`): a bare key reads the map with `??` fallback (a
stored `null` or `undefined` falls back), an array path delegates to
`getScoped`. -/
def Store.get (st : Store) : PathArg → JVal
  | .key k =>
      match mget st.map k with
      | none => st.getFallbackValue k
      | some .jundefined => st.getFallbackValue k
      | some .jnull => st.getFallbackValue k
      | some v => v
  | .path p => st.getScoped p

/-- Nested assignment walk of `set` over the segments after the
top-level key.  An intermediate read of `undefined` autovivifies an
empty object (`current[pathArray[i]] = {}`); the write-back composes
the in-place mutations the source performs through aliasing.  `none`
marks the strict-mode `TypeError` raised on property access through
`null`/`undefined` or property creation on a primitive; the source
mutates nothing before any such throw. -/
def setNested : JVal → List Seg → JVal → Option JVal
  | v, [], _ => some v
  | v, [last], item => jsSet v last item
  | v, seg :: seg2 :: rest, item =>
      match v with
      | .jundefined => none
      | .jnull => none
      | v =>
          let child := jsGet v seg
          let child :=
            match child with
            | .jundefined => JVal.obj []
            | c => c
          match setNested child (seg2 :: rest) item with
          | none => none
          | some child2 => jsSet v seg child2

/-- Write operation (`set`).  A one-segment path replaces the top-level
entry; a longer path is a silent no-op when the top-level entry is
missing (`existingData === undefined`), and otherwise assigns through
the existing value, autovivifying missing intermediate objects.  The
result couples the new store with the synchronisation calls made when
`notify` is set (`syncItem`, plus `syncSize`/`syncKeys` for top-level
changes); `none` models a thrown `TypeError`. -/
def Store.set (st : Store) (a : PathArg) (item : JVal) (notify : Bool) :
    Option (Store × List SyncEvent) :=
  match a.restSegs with
  | [] =>
      some ({ st with map := mset st.map a.topKey item },
            if notify then [.itemSync a, .sizeSync, .keysSync] else [])
  | seg :: rest =>
      match mget st.map a.topKey with
      | none => some (st, [])
      | some .jundefined => some (st, [])
      | some data =>
          match setNested data (seg :: rest) item with
          | none => none
          | some data2 =>
              some ({ st with map := mset st.map a.topKey data2 },
                    if notify then [.itemSync a] else [])

/-- Argument of `update`: either an updater function or a value (the
source distinguishes them with `typeof item === 'function'`). -/
inductive UpdArg where
  | fn (f : JVal → JVal)
  | val (v : JVal)

/-- Top-level application of an `update` argument to the current value:
functions are applied, plain objects (not `null`, not arrays) are
spread-merged onto the current value, everything else replaces it. -/
def applyUpd (item : UpdArg) (data : JVal) : JVal :=
  match item with
  | .fn f => f data
  | .val v =>
      match v with
      | .obj fields => .obj (mergeFields (spreadFields data) fields)
      | v => v

/-- Outcome of the nested branch of `update`: a thrown `TypeError`, a
silent abort on a missing intermediate, or the updated top value. -/
inductive UpdResult where
  | threw
  | aborted
  | ok (v : JVal)

/-- Nested walk of `update`.  The source walks `current` through the
intermediate segments of the shallow top-level clone without further
cloning and aborts when an intermediate is `undefined` or `null`; the
final segment receives the applied update argument.  Write-backs again
compose the in-place mutations performed through aliasing. -/
def updNested : JVal → List Seg → UpdArg → UpdResult
  | cur, [], _ => .ok cur
  | cur, [last], item =>
      match jsSet cur last (applyUpd item (jsGet cur last)) with
      | none => .threw
      | some cur2 => .ok cur2
  | cur, seg :: seg2 :: rest, item =>
      match jsGet cur seg with
      | .jundefined => .aborted
      | .jnull => .aborted
      | next =>
          match updNested next (seg2 :: rest) item with
          | .ok next2 =>
              match jsSet cur seg next2 with
              | none => .threw
              | some cur2 => .ok cur2
          | r => r

/-- Update operation (`update`).  A missing top-level key
(`!this.map.has`) is a silent no-op with no notification; a one-segment
path updates the entry in place; a longer path operates on the shallow
clone `{...data}` of the current top value.  `none` models a thrown
`TypeError` (only possible in the nested branch). -/
def Store.update (st : Store) (a : PathArg) (item : UpdArg) (notify : Bool) :
    Option (Store × List SyncEvent) :=
  match mget st.map a.topKey with
  | none => some (st, [])
  | some data =>
      match a.restSegs with
      | [] =>
          some ({ st with map := mset st.map a.topKey (applyUpd item data) },
                if notify then [.itemSync a] else [])
      | seg :: rest =>
          match updNested (.obj (spreadFields data)) (seg :: rest) item with
          | .threw => none
          | .aborted => some (st, [])
          | .ok updatedItem =>
              some ({ st with map := mset st.map a.topKey updatedItem },
                    if notify then [.itemSync a] else [])

/-- Duplicate-free string accumulation, the semantics of
`Set<string>.add`. -/
def setAddStr (l : List String) (s : String) : List String :=
  if s ∈ l then l else l ++ [s]

/-- Loop body of `batchUpdate`: entries whose update value is
`undefined` are skipped (`if (update !== undefined)`); every other key
is passed to `update` with notification suppressed and, regardless of
whether the key was present in the store, added to `updatedKeys`. -/
def batchStep (acc : Option (Store × List String)) (kv : String × Option UpdArg) :
    Option (Store × List String) :=
  match acc with
  | none => none
  | some (s, ks) =>
      match kv.2 with
      | none => some (s, ks)
      | some u =>
          match s.update (.key kv.1) u false with
          | none => none
          | some (s2, _) => some (s2, setAddStr ks kv.1)

/-- Batch update (`batchUpdate`): applies `batchStep` over the entries
of the updates object in insertion order, then hands the accumulated
`updatedKeys` set to `syncItems` for the single coalesced
notification. -/
def Store.batchUpdate (st : Store) (updates : List (String × Option UpdArg))
    (notify : Bool) : Option (Store × List SyncEvent) :=
  match updates.foldl batchStep (some (st, [])) with
  | none => none
  | some (st2, keys) =>
      some (st2, if notify then [.itemsSync (keys.map PathArg.key)] else [])

/-- Removal of a top-level entry (`remove`), notifying the item, size
and keys channels for that key. -/
def Store.remove (st : Store) (k : String) (notify : Bool) : Store × List SyncEvent :=
  ({ st with map := mdelete st.map k },
   if notify then [.itemSync (.key k), .sizeSync, .keysSync] else [])

/-- Bulk replacement (`setMap`).  The backing map is swapped; when
notifying, all four subscriber registries are cleared first and then
the full item sweep, the size channel and the keys channel each fire
once.  The `skipSnapshot` flag only suppresses the devtools echo and is
omitted. -/
def Store.setMap (st : Store) (m : List (String × JVal)) (notify : Bool) :
    Store × List SyncEvent :=
  let st1 := { st with map := m }
  if notify then
    ({ st1 with
        itemSubscribers := []
        itemSubscriberPaths := []
        sizeSubscribers := []
        keysSubscribers := [] },
     [.mapSync, .sizeSync, .keysSync])
  else (st1, [])

/-- Conversion of a plain object into a fresh map followed by `setMap`
(`setMapFromObject`). -/
def Store.setMapFromObject (st : Store) (entries : List (String × JVal))
    (notify : Bool) : Store × List SyncEvent :=
  let newMap := entries.foldl (fun m kv => mset m kv.1 kv.2) []
  st.setMap newMap notify

/-- Handling of an inbound devtools `DISPATCH` message of type
`ROLLBACK`, `JUMP_TO_STATE` or `JUMP_TO_ACTION` carrying a state
string.  `JSON.parse` is a platform builtin, so its outcome is passed
in: `some entries` is a successful parse of the attached state string
into a plain object with the given own entries, `none` is a thrown
parse error, which the handler catches and logs, leaving the store
untouched.  On success the parsed object replaces the map without
notification and a full `syncMap` sweep follows. -/
def Store.handleDevToolsJump (st : Store) (parsed : Option (List (String × JVal))) :
    Store × List SyncEvent :=
  match parsed with
  | some entries =>
      let r := st.setMapFromObject entries false
      (r.1, r.2 ++ [.mapSync])
  | none => (st, [])

/-- Duplicate-free callback accumulation, the semantics of
`Set<() => void>.add`. -/
def setAddNat (l : List Nat) (c : Nat) : List Nat :=
  if c ∈ l then l else l ++ [c]

/-- Accumulation of a whole callback collection into a working set,
`for (const callback of callbacks) batch.add(callback)`. -/
def addAllNat (l : List Nat) (cs : List Nat) : List Nat :=
  cs.foldl setAddNat l

/-- Registration of a path subscriber (`addSubscriber`): a fresh
identity gains an entry in both the registry and the path set, then the
callback is added to the set at the identity. -/
def Store.addSubscriber (st : Store) (p : JPath) (cb : Nat) : Store :=
  let ps := pathToString (.path p)
  match mget st.itemSubscribers ps with
  | some cbs =>
      { st with itemSubscribers := mset st.itemSubscribers ps (setAddNat cbs cb) }
  | none =>
      { st with
          itemSubscribers := st.itemSubscribers ++ [(ps, setAddNat [] cb)]
          itemSubscriberPaths := st.itemSubscriberPaths ++ [ps] }

/-- Deregistration of a path subscriber (`removeSubscriber`): the
callback is deleted from the set at the identity, and when the set
becomes empty the identity is dropped from both the registry and the
path set. -/
def Store.removeSubscriber (st : Store) (p : JPath) (cb : Nat) : Store :=
  let ps := pathToString (.path p)
  match mget st.itemSubscribers ps with
  | none => st
  | some cbs =>
      let cbs2 := cbs.erase cb
      if cbs2 = [] then
        { st with
            itemSubscribers := mdelete st.itemSubscribers ps
            itemSubscriberPaths := st.itemSubscriberPaths.filter (fun q => q ≠ ps) }
      else
        { st with itemSubscribers := mset st.itemSubscribers ps cbs2 }

/-- Prefix-on-prefix test `subPath.startsWith(fullPath + '.')`,
expressed on the underlying character lists. -/
def jsStartsWith (s pre : String) : Bool :=
  pre.data.isPrefixOf s.data

/-- Addition of every callback registered at path identity `q` to the
working set (the `this.itemSubscribers.get(q)` followed by the add
loop). -/
def Store.collectAt (st : Store) (b : List Nat) (q : String) : List Nat :=
  match mget st.itemSubscribers q with
  | some cbs => addAllNat b cbs
  | none => b

/-- Incremental prefix identities visited by the ancestor loop of
`syncItem`: `currentPath += (currentPath ? '.' : '') + segment`,
looking the accumulated identity up after every segment.  Note the
truthiness test: an empty accumulated identity contributes no
separator. -/
def prefixAcc (cur : String) : List String → List String
  | [] => []
  | seg :: rest =>
      let cur2 := if cur = "" then seg else cur ++ "." ++ seg
      cur2 :: prefixAcc cur2 rest

/-- Working set computed by `syncItem(key)`: first every registered
identity equal to the canonical path or extending it beyond a dot
separator, then every identity produced by the incremental ancestor
loop (which includes the full path itself).  `batchedUpdate` then
invokes each member of this duplicate-free set once inside one
transition. -/
def Store.syncItemBatch (st : Store) (a : PathArg) : List Nat :=
  let fullPath := pathToString a
  let batch := st.itemSubscriberPaths.foldl
    (fun b subPath =>
      if subPath = fullPath ∨ jsStartsWith subPath (fullPath ++ ".") then
        st.collectAt b subPath
      else b)
    []
  (prefixAcc "" (pathToStringArray a)).foldl (fun b cur => st.collectAt b cur) batch

/-- Working set computed by `syncItems(keys)`: for every key, every
registered identity equal to the canonical path or extending it beyond
a dot separator.  Unlike `syncItem` there is no ancestor loop. -/
def Store.syncItemsBatch (st : Store) (keys : List PathArg) : List Nat :=
  keys.foldl
    (fun b a =>
      let ps := pathToString a
      st.itemSubscriberPaths.foldl
        (fun b subPath =>
          if subPath = ps ∨ jsStartsWith subPath (ps ++ ".") then
            st.collectAt b subPath
          else b)
        b)
    []

/-- Working set computed by `syncMap()`: every callback of every
registered identity. -/
def Store.syncMapBatch (st : Store) : List Nat :=
  st.itemSubscribers.foldl (fun b kv => addAllNat b kv.2) []

/-- Callback `c` is registered at path identity `q`: the registry has a
callback set at `q` containing `c`. -/
def registeredAt (st : Store) (q : String) (c : Nat) : Prop :=
  ∃ cbs, mget st.itemSubscribers q = some cbs ∧ c ∈ cbs

/-- Union of affected callbacks that the specification ascribes to
`notifyPath(p)`: callbacks registered exactly at the canonical identity
of `p`, callbacks registered at an identity equal to that identity
followed by a dot and more characters (descendants), and callbacks
registered at the identity of a strict prefix of the segment sequence
of `p` (ancestors). -/
def inNotifyUnion (st : Store) (a : PathArg) (c : Nat) : Prop :=
  registeredAt st (pathToString a) c
  ∨ (∃ s, registeredAt st (pathToString a ++ "." ++ s) c)
  ∨ (∃ k, k + 1 < (pathToStringArray a).length ∧
      registeredAt st (joinDots ((pathToStringArray a).take (k + 1))) c)

/-- Exact-or-descendant clause of the union, accumulated over a list of
paths: what the specification ascribes to `notifyKeys(keys)` minus the
ancestor clause. -/
def inKeysUnion (st : Store) (keys : List PathArg) (c : Nat) : Prop :=
  ∃ a ∈ keys, registeredAt st (pathToString a) c
    ∨ ∃ s, registeredAt st (pathToString a ++ "." ++ s) c

/-- List of the nonempty prefixes of a list, shortest first. -/
def nonNilPrefixes (l : List String) : List (List String) :=
  (List.range l.length).map (fun k => l.take (k + 1))

/-- Keys of the updates object whose update value is defined, in
insertion order, accumulated with set semantics. -/
def definedKeys (updates : List (String × Option UpdArg)) : List String :=
  updates.foldl
    (fun ks kv =>
      match kv.2 with
      | some _ => setAddStr ks kv.1
      | none => ks)
    []

/-- Invariant of the item-subscriber registry stated by the
specification: every registered path identity carries a nonempty
callback set. -/
def Store.NonemptyRegistry (st : Store) : Prop :=
  ∀ x ∈ st.itemSubscribers, x.2 ≠ []

end MapStore

namespace HeapModel

/-- Heap-level JavaScript values for the aliasing model of `update`:
primitives (numbers standing in for all of them), `null`, `undefined`,
and references to heap-allocated plain objects. -/
inductive HVal where
  | jundefined
  | hnull
  | prim (n : Int)
  | ref (a : Nat)
deriving DecidableEq

/-- Fields of a heap object. -/
abbrev Obj := List (String × HVal)

/-- Heap of addressed plain objects with an allocation counter. -/
structure Heap where
  objs : List (Nat × Obj)
  next : Nat

/-- Well-formedness: every allocated address is below the allocation
counter, so fresh allocations never collide. -/
def Heap.WF (h : Heap) : Prop :=
  ∀ p ∈ h.objs, p.1 < h.next

/-- Field read on an object: missing fields are `undefined`. -/
def objGet (o : Obj) (k : String) : HVal :=
  (MapStore.mget o k).getD .jundefined

/-- Object stored at an address (dangling addresses, which cannot occur
in well-formed runs, read as empty). -/
def Heap.fetch (h : Heap) (a : Nat) : Obj :=
  (MapStore.mget h.objs a).getD []

/-- In-place overwrite of the object at an address. -/
def Heap.setObj (h : Heap) (a : Nat) (o : Obj) : Heap :=
  ⟨MapStore.mset h.objs a o, h.next⟩

/-- Allocation of a new object at the fresh address. -/
def Heap.alloc (h : Heap) (o : Obj) : Heap × Nat :=
  (⟨h.objs ++ [(h.next, o)], h.next + 1⟩, h.next)

/-- Own fields contributed by an object spread `{...v}`: a reference
contributes the fields of its target, primitives and `null` and
`undefined` contribute nothing. -/
def heapSpread (h : Heap) : HVal → Obj
  | .ref a => h.fetch a
  | _ => []

/-- Property read `v[k]` on a value that is not `null`/`undefined`:
reads through references, yields `undefined` on primitives. -/
def hReadField (h : Heap) (v : HVal) (k : String) : HVal :=
  match v with
  | .ref a => objGet (h.fetch a) k
  | _ => .jundefined

/-- Argument of `update` in the heap model: an updater function or a
value (a reference to a plain object selects the merge branch, other
values replace outright; arrays are not modelled in the heap view). -/
inductive UArg where
  | fn (f : HVal → HVal)
  | val (v : HVal)

/-- Final assignment `current[lastKey] = ...` of the nested `update`
branch.  A function argument is applied to the current field value; a
reference argument spreads the old field value and the argument into a
freshly allocated object; other arguments are stored outright.  `none`
models the strict-mode `TypeError` on assignment through a
non-object. -/
def Heap.assignLast (h : Heap) (cur : HVal) (lastKey : String) (item : UArg) :
    Option Heap :=
  match cur with
  | .ref a =>
      match MapStore.mget h.objs a with
      | none => none
      | some o =>
          match item with
          | .fn f => some (h.setObj a (MapStore.mset o lastKey (f (objGet o lastKey))))
          | .val v =>
              match v with
              | .ref ia =>
                  let merged := (h.fetch ia).foldl
                    (fun acc kv => MapStore.mset acc kv.1 kv.2)
                    (heapSpread h (objGet o lastKey))
                  let r := h.alloc merged
                  some (r.1.setObj a (MapStore.mset o lastKey (.ref r.2)))
              | v => some (h.setObj a (MapStore.mset o lastKey v))
  | _ => none

/-- Walk of the nested `update` branch through the intermediate
segments: `current = current[pathArray[i]]` with a silent abort (mapped
to `none`, like the `TypeError` outcomes; the source mutates no
pre-existing object on either) when an intermediate is `undefined` or
`null`.  Crucially, intermediate objects are NOT cloned: the walk
descends into the very objects the pre-update value references. -/
def Heap.updWalk (h : Heap) (cur : HVal) :
    List String → String → UArg → Option Heap
  | [], lastKey, item => h.assignLast cur lastKey item
  | seg :: rest, lastKey, item =>
      match hReadField h cur seg with
      | .jundefined => none
      | .hnull => none
      | next => h.updWalk next rest lastKey item

/-- Store view of the heap model: the backing map plus the heap. -/
structure HStore where
  map : List (String × HVal)
  heap : Heap

/-- Nested branch of `update` (path length at least 2) in the heap
model: `updatedItem = { ...data }` allocates a single shallow clone of
the current top-level value, the walk descends through the original
(uncloned) intermediate objects, and the final assignment mutates
whatever object the walk ends on.  The path is `top :: mids ++
[lastKey]`.  `none` collapses the missing-key no-op, the silent abort
and the `TypeError` outcomes, none of which mutate a pre-existing
object. -/
def HStore.updateNested (st : HStore) (top : String) (mids : List String)
    (lastKey : String) (item : UArg) : Option HStore :=
  match MapStore.mget st.map top with
  | none => none
  | some data =>
      let r := st.heap.alloc (heapSpread st.heap data)
      match r.1.updWalk (.ref r.2) mids lastKey item with
      | none => none
      | some h2 => some ⟨MapStore.mset st.map top (.ref r.2), h2⟩

/-- Heap reachability: address `b` is reachable from address `a` by
following object fields. -/
inductive Reaches (h : Heap) : Nat → Nat → Prop
  | refl (a : Nat) : Reaches h a a
  | step (a b c : Nat) (o : Obj) (k : String) :
      MapStore.mget h.objs a = some o → MapStore.mget o k = some (.ref b) →
      Reaches h b c → Reaches h a c

end HeapModel

namespace MapStore

/-- Registry with one subscriber (callback 0) at identity `b`. -/
def stEmptyHead : Store :=
  { itemSubscribers := [("b", [0])], itemSubscriberPaths := ["b"] }

/-- Path whose first segment stringifies to the empty string. -/
def aEmptyHead : PathArg := .path ⟨"", [.str "b"]⟩

/-- Registry with one subscriber (callback 0) at identity `a`. -/
def stAncestor : Store :=
  { itemSubscribers := [("a", [0])], itemSubscriberPaths := ["a"] }

/-- The nested path `['a','b']`. -/
def aAB : PathArg := .path ⟨"a", [.str "b"]⟩

/-- Store holding an empty object at `a`. -/
def stObjA : Store := Store.init [("a", .obj [])] none .map

/-- The store `stObjA` after `set(['a','b'], 7)`. -/
def stObjASet : Store := { stObjA with map := [("a", .obj [("b", .num 7)])] }

/-- Empty store with no fallback configured. -/
def stEmpty : Store := Store.init [] none .map

/-- Store holding the primitive 5 at `a`. -/
def stPrimA : Store := Store.init [("a", .num 5)] none .map

/-- Store holding the number 1 at `a` only. -/
def stBatch : Store := Store.init [("a", .num 1)] none .map

/-- Batch updates touching the present key `a` and the absent key
`b`. -/
def updsBatch : List (String × Option UpdArg) :=
  [("a", some (.val (.num 2))), ("b", some (.val (.num 3)))]

/-- The store `stBatch` after the batch update of `updsBatch`. -/
def stBatch2 : Store := { stBatch with map := [("a", .num 2)] }

/-- Store for the nested-fallback scenario of the specification:
initial state `{user: {name: 'John', roles: []}}`, object mode,
fallback `{user: {name: 'Anon', roles: ['guest']}}`. -/
def stScenario : Store :=
  Store.init [("user", .obj [("name", .str "John"), ("roles", .arr [])])]
    (some (.obj [("user", .obj [("name", .str "Anon"), ("roles", .arr [.str "guest"])])]))
    .object

/-- Store with one entry, one path subscriber, fallback-free. -/
def stJump : Store :=
  { map := [("x", .num 1)], itemSubscribers := [("x", [3])], itemSubscriberPaths := ["x"] }

/-- Store holding `null` at `a` with a configured fallback. -/
def stNullA : Store := Store.init [("a", .jnull)] (some (.num 42)) .map

end MapStore

namespace HeapModel

/-- Heap with the top object 0 = `{b: ref 1}` and object 1 =
`{c: 0}`. -/
def heapDeep : Heap := ⟨[(0, [("b", .ref 1)]), (1, [("c", .prim 0)])], 2⟩

/-- Heap store with `a` bound to object 0 of `heapDeep`, that is
`{a: {b: {c: 0}}}` with explicit sharing. -/
def hstDeep : HStore := ⟨[("a", .ref 0)], heapDeep⟩

/-- Heap store `{a: {b: 1}}` with object 0 = `{b: 1}`. -/
def hstShallow : HStore := ⟨[("a", .ref 0)], ⟨[(0, [("b", .prim 1)])], 1⟩⟩

end HeapModel

namespace MapStore

theorem mget_mset_self {κ α : Type} [DecidableEq κ] (l : List (κ × α)) (k : κ) (v : α) :
    mget (mset l k v) k = some v := by
  induction l with
  | nil => simp [mget, mset]
  | cons hd tl ih =>
      by_cases h : hd.1 = k
      · simp [mset, mget, h]
      · simpa [mset, mget, h] using ih

theorem mget_mset_ne {κ α : Type} [DecidableEq κ] (l : List (κ × α)) (k k' : κ) (v : α)
    (h : k' ≠ k) : mget (mset l k v) k' = mget l k' := by
  induction l with
  | nil => simp [mget, mset, Ne.symm h]
  | cons hd tl ih =>
      obtain ⟨a, b⟩ := hd
      by_cases hk : a = k
      · subst hk
        simp [mset, mget, Ne.symm h]
      · by_cases hk' : a = k'
        · simp [mset, mget, hk, hk', h]
        · simp [mset, mget, hk, hk', ih]

theorem mget_append_some {κ α : Type} [DecidableEq κ] (l m : List (κ × α)) (k : κ) (v : α)
    (h : mget l k = some v) : mget (l ++ m) k = some v := by
  induction l with
  | nil => simp [mget] at h
  | cons hd tl ih =>
      by_cases hk : hd.1 = k
      · simp_all [mget]
      · simp_all [mget]

theorem mget_append_none {κ α : Type} [DecidableEq κ] (l m : List (κ × α)) (k : κ)
    (h : mget l k = none) : mget (l ++ m) k = mget m k := by
  induction l with
  | nil => simp
  | cons hd tl ih =>
      by_cases hk : hd.1 = k
      · simp_all [mget]
      · simp_all [mget]

theorem mget_mdelete_self {κ α : Type} [DecidableEq κ] (l : List (κ × α)) (k : κ) :
    mget (mdelete l k) k = none := by
  induction l with
  | nil => simp [mget, mdelete]
  | cons hd tl ih =>
      obtain ⟨a, b⟩ := hd
      by_cases hk : a = k
      · simpa [mdelete, hk] using ih
      · simpa [mdelete, mget, hk, List.filter_cons] using ih

theorem mget_mdelete_ne {κ α : Type} [DecidableEq κ] (l : List (κ × α)) (k k' : κ)
    (h : k' ≠ k) : mget (mdelete l k) k' = mget l k' := by
  induction l with
  | nil => simp [mdelete]
  | cons hd tl ih =>
      obtain ⟨a, b⟩ := hd
      by_cases hk : a = k
      · subst hk
        simp only [mdelete, List.filter_cons] at ih ⊢
        simpa [mget, Ne.symm h] using ih
      · by_cases hk' : a = k'
        · simp only [mdelete, List.filter_cons] at ih ⊢
          simp [mget, hk, hk', h]
        · simp only [mdelete, List.filter_cons] at ih ⊢
          simpa [mget, hk, hk'] using ih

theorem mem_keys_of_mget_some {κ α : Type} [DecidableEq κ] (l : List (κ × α)) (k : κ) (v : α)
    (h : mget l k = some v) : k ∈ l.map Prod.fst := by
  induction l with
  | nil => simp [mget] at h
  | cons hd tl ih =>
      by_cases hk : hd.1 = k
      · simp [hk]
      · simp only [mget, hk, if_false] at h
        simp [ih h]

theorem mget_isSome_of_mem_keys {κ α : Type} [DecidableEq κ] (l : List (κ × α)) (k : κ)
    (h : k ∈ l.map Prod.fst) : ∃ v, mget l k = some v := by
  induction l with
  | nil => simp at h
  | cons hd tl ih =>
      by_cases hk : hd.1 = k
      · exact ⟨hd.2, by simp [mget, hk]⟩
      · simp only [List.map_cons, List.mem_cons] at h
        rcases h with h | h
        · exact absurd h.symm hk
        · simpa [mget, hk] using ih h

theorem mem_of_mem_mset {κ α : Type} [DecidableEq κ] (l : List (κ × α)) (k : κ) (v : α)
    (x : κ × α) (h : x ∈ mset l k v) : x = (k, v) ∨ x ∈ l := by
  induction l with
  | nil => simpa [mset] using h
  | cons hd tl ih =>
      by_cases hk : hd.1 = k
      · simp only [mset, hk, if_true, List.mem_cons] at h
        rcases h with h | h
        · exact Or.inl h
        · exact Or.inr (List.mem_cons_of_mem _ h)
      · simp only [mset, hk, if_false, List.mem_cons] at h
        rcases h with h | h
        · exact Or.inr (h ▸ List.mem_cons_self _ _)
        · rcases ih h with h | h
          · exact Or.inl h
          · exact Or.inr (List.mem_cons_of_mem _ h)

theorem mset_eq_append {κ α : Type} [DecidableEq κ] (l : List (κ × α)) (k : κ) (v : α)
    (h : mget l k = none) : mset l k v = l ++ [(k, v)] := by
  induction l with
  | nil => simp [mset]
  | cons hd tl ih =>
      by_cases hk : hd.1 = k
      · simp [mget, hk] at h
      · simp only [mget, hk, if_false] at h
        simp [mset, hk, ih h]

theorem foldl_mset_extend {κ α : Type} [DecidableEq κ] (l acc : List (κ × α))
    (hdisj : ∀ kv ∈ l, mget acc kv.1 = none)
    (hnd : (l.map Prod.fst).Nodup) :
    l.foldl (fun m kv => mset m kv.1 kv.2) acc = acc ++ l := by
  induction l generalizing acc with
  | nil => simp
  | cons hd tl ih =>
      have hacc : mget acc hd.1 = none := hdisj hd (List.mem_cons_self _ _)
      have hstep : mset acc hd.1 hd.2 = acc ++ [hd] := by
        rw [mset_eq_append _ _ _ hacc]
      have hnd' : (tl.map Prod.fst).Nodup := (List.nodup_cons.mp hnd).2
      have hhd : hd.1 ∉ tl.map Prod.fst := (List.nodup_cons.mp hnd).1
      have hdisj' : ∀ kv ∈ tl, mget (acc ++ [hd]) kv.1 = none := by
        intro kv hkv
        have h1 : mget acc kv.1 = none := hdisj kv (List.mem_cons_of_mem _ hkv)
        rw [mget_append_none _ _ _ h1]
        have : hd.1 ≠ kv.1 := fun he => hhd (he ▸ List.mem_map_of_mem Prod.fst hkv)
        simp [mget, this]
      calc tl.foldl (fun m kv => mset m kv.1 kv.2) (mset acc hd.1 hd.2)
          = tl.foldl (fun m kv => mset m kv.1 kv.2) (acc ++ [hd]) := by rw [hstep]
        _ = (acc ++ [hd]) ++ tl := ih (acc ++ [hd]) hdisj' hnd'
        _ = acc ++ hd :: tl := by simp

theorem mem_setAddNat (l : List Nat) (x c : Nat) :
    c ∈ setAddNat l x ↔ c ∈ l ∨ c = x := by
  by_cases h : x ∈ l
  · simp only [setAddNat, h, if_true]
    constructor
    · exact Or.inl
    · rintro (hc | rfl)
      · exact hc
      · exact h
  · simp [setAddNat, h]

theorem nodup_setAddNat (l : List Nat) (x : Nat) (h : l.Nodup) :
    (setAddNat l x).Nodup := by
  by_cases hx : x ∈ l
  · simpa [setAddNat, hx] using h
  · simpa [setAddNat, hx, List.nodup_append] using h

theorem mem_addAllNat (l cs : List Nat) (c : Nat) :
    c ∈ addAllNat l cs ↔ c ∈ l ∨ c ∈ cs := by
  induction cs generalizing l with
  | nil => simp [addAllNat]
  | cons hd tl ih =>
      show c ∈ addAllNat (setAddNat l hd) tl ↔ _
      rw [ih, mem_setAddNat]
      simp only [List.mem_cons]
      tauto

theorem nodup_addAllNat (l cs : List Nat) (h : l.Nodup) :
    (addAllNat l cs).Nodup := by
  induction cs generalizing l with
  | nil => simpa [addAllNat] using h
  | cons hd tl ih => exact ih _ (nodup_setAddNat _ _ h)

theorem mem_setAddStr (l : List String) (x s : String) :
    s ∈ setAddStr l x ↔ s ∈ l ∨ s = x := by
  by_cases h : x ∈ l
  · simp only [setAddStr, h, if_true]
    constructor
    · exact Or.inl
    · rintro (hc | rfl)
      · exact hc
      · exact h
  · simp [setAddStr, h]

end MapStore

namespace MapStore

theorem mem_collectAt (st : Store) (b : List Nat) (q : String) (c : Nat) :
    c ∈ st.collectAt b q ↔ c ∈ b ∨ registeredAt st q c := by
  unfold Store.collectAt registeredAt
  cases h : mget st.itemSubscribers q with
  | none => simp [h]
  | some cbs => simp [h, mem_addAllNat]

theorem nodup_collectAt (st : Store) (b : List Nat) (q : String) (h : b.Nodup) :
    (st.collectAt b q).Nodup := by
  unfold Store.collectAt
  cases mget st.itemSubscribers q with
  | none => exact h
  | some cbs => exact nodup_addAllNat _ _ h

theorem mem_syncFold (st : Store) (full : String) (l : List String) (init : List Nat)
    (c : Nat) :
    c ∈ l.foldl
        (fun b subPath =>
          if subPath = full ∨ jsStartsWith subPath (full ++ ".") then
            st.collectAt b subPath
          else b)
        init ↔
      c ∈ init ∨ ∃ q ∈ l, (q = full ∨ jsStartsWith q (full ++ ".")) ∧ registeredAt st q c := by
  induction l generalizing init with
  | nil => simp
  | cons hd tl ih =>
      rw [List.foldl_cons, ih]
      by_cases hc : hd = full ∨ jsStartsWith hd (full ++ ".")
      · rw [if_pos hc]
        rw [mem_collectAt]
        constructor
        · rintro ((h | h) | ⟨q, hq, hcq, hr⟩)
          · exact Or.inl h
          · exact Or.inr ⟨hd, List.mem_cons_self _ _, hc, h⟩
          · exact Or.inr ⟨q, List.mem_cons_of_mem _ hq, hcq, hr⟩
        · rintro (h | ⟨q, hq, hcq, hr⟩)
          · exact Or.inl (Or.inl h)
          · rcases List.mem_cons.mp hq with rfl | hq
            · exact Or.inl (Or.inr hr)
            · exact Or.inr ⟨q, hq, hcq, hr⟩
      · rw [if_neg hc]
        constructor
        · rintro (h | ⟨q, hq, hcq, hr⟩)
          · exact Or.inl h
          · exact Or.inr ⟨q, List.mem_cons_of_mem _ hq, hcq, hr⟩
        · rintro (h | ⟨q, hq, hcq, hr⟩)
          · exact Or.inl h
          · rcases List.mem_cons.mp hq with rfl | hq
            · exact absurd hcq hc
            · exact Or.inr ⟨q, hq, hcq, hr⟩

theorem nodup_syncFold (st : Store) (full : String) (l : List String) (init : List Nat)
    (h : init.Nodup) :
    (l.foldl
        (fun b subPath =>
          if subPath = full ∨ jsStartsWith subPath (full ++ ".") then
            st.collectAt b subPath
          else b)
        init).Nodup := by
  induction l generalizing init with
  | nil => exact h
  | cons hd tl ih =>
      rw [List.foldl_cons]
      by_cases hc : hd = full ∨ jsStartsWith hd (full ++ ".")
      · rw [if_pos hc]
        exact ih _ (nodup_collectAt _ _ _ h)
      · rw [if_neg hc]
        exact ih _ h

theorem mem_collectFold (st : Store) (l : List String) (init : List Nat) (c : Nat) :
    c ∈ l.foldl (fun b cur => st.collectAt b cur) init ↔
      c ∈ init ∨ ∃ q ∈ l, registeredAt st q c := by
  induction l generalizing init with
  | nil => simp
  | cons hd tl ih =>
      rw [List.foldl_cons, ih, mem_collectAt]
      constructor
      · rintro ((h | h) | ⟨q, hq, hr⟩)
        · exact Or.inl h
        · exact Or.inr ⟨hd, List.mem_cons_self _ _, h⟩
        · exact Or.inr ⟨q, List.mem_cons_of_mem _ hq, hr⟩
      · rintro (h | ⟨q, hq, hr⟩)
        · exact Or.inl (Or.inl h)
        · rcases List.mem_cons.mp hq with rfl | hq
          · exact Or.inl (Or.inr hr)
          · exact Or.inr ⟨q, hq, hr⟩

theorem nodup_collectFold (st : Store) (l : List String) (init : List Nat)
    (h : init.Nodup) :
    (l.foldl (fun b cur => st.collectAt b cur) init).Nodup := by
  induction l generalizing init with
  | nil => exact h
  | cons hd tl ih =>
      rw [List.foldl_cons]
      exact ih _ (nodup_collectAt _ _ _ h)

theorem string_data_ext (a b : String) (h : a.data = b.data) : a = b := by
  cases a
  cases b
  exact congrArg String.mk h

theorem string_append_ne_empty (a b : String) (h : a ≠ "") : a ++ b ≠ "" := by
  intro he
  apply h
  apply string_data_ext
  have := congrArg String.data he
  rw [String.data_append] at this
  rcases List.append_eq_nil.mp this with ⟨h1, _⟩
  exact h1

theorem jsStartsWith_iff (s pre : String) :
    jsStartsWith s pre = true ↔ ∃ t, s = pre ++ t := by
  unfold jsStartsWith
  rw [List.isPrefixOf_iff_prefix]
  constructor
  · rintro ⟨t, ht⟩
    refine ⟨⟨t⟩, ?_⟩
    apply string_data_ext
    rw [String.data_append]
    exact ht.symm
  · rintro ⟨t, rfl⟩
    exact ⟨t.data, (String.data_append pre t).symm⟩

theorem joinDots_cons (s : String) (rest : List String) (h : rest ≠ []) :
    joinDots (s :: rest) = s ++ "." ++ joinDots rest := by
  cases rest with
  | nil => exact absurd rfl h
  | cons a tl => rfl

theorem joinDots_cons_cons (a b : String) (p : List String) :
    joinDots (a :: b :: p) = joinDots ((a ++ "." ++ b) :: p) := by
  cases p with
  | nil => rfl
  | cons c cs =>
      show a ++ "." ++ joinDots (b :: c :: cs) = (a ++ "." ++ b) ++ "." ++ joinDots (c :: cs)
      rw [joinDots_cons b (c :: cs) (by simp)]
      simp [String.append_assoc]

theorem nonNilPrefixes_cons (x : String) (xs : List String) :
    nonNilPrefixes (x :: xs) = [x] :: (nonNilPrefixes xs).map (fun p => x :: p) := by
  unfold nonNilPrefixes
  rw [List.length_cons, List.range_succ_eq_map, List.map_cons, List.map_map, List.map_map]
  congr 1

theorem prefixAcc_eq (cur : String) (l : List String) (h : cur ≠ "") :
    prefixAcc cur l = (nonNilPrefixes l).map (fun p => joinDots (cur :: p)) := by
  induction l generalizing cur with
  | nil => simp [prefixAcc, nonNilPrefixes]
  | cons seg rest ih =>
      rw [nonNilPrefixes_cons, List.map_cons, List.map_map]
      show (if cur = "" then seg else cur ++ "." ++ seg) ::
          prefixAcc (if cur = "" then seg else cur ++ "." ++ seg) rest = _
      rw [if_neg h]
      have h2 : cur ++ "." ++ seg ≠ "" :=
        string_append_ne_empty _ _ (string_append_ne_empty _ _ h)
      rw [ih _ h2]
      refine List.cons_eq_cons.mpr ⟨rfl, ?_⟩
      apply List.map_congr_left
      intro p _
      show joinDots ((cur ++ "." ++ seg) :: p) = joinDots (cur :: seg :: p)
      rw [joinDots_cons_cons]

theorem prefixAcc_nil_eq (s : String) (rest : List String) (h : s ≠ "" ∨ rest = []) :
    prefixAcc "" (s :: rest) = (nonNilPrefixes (s :: rest)).map joinDots := by
  rcases h with h | rfl
  · show (if ("" : String) = "" then s else "" ++ "." ++ s) ::
        prefixAcc (if ("" : String) = "" then s else "" ++ "." ++ s) rest = _
    rw [if_pos rfl]
    rw [prefixAcc_eq s rest h, nonNilPrefixes_cons, List.map_cons, List.map_map]
    rfl
  · simp [prefixAcc, nonNilPrefixes, joinDots]

theorem mem_nonNilPrefixes_map (l : List String) (q : String) :
    q ∈ (nonNilPrefixes l).map joinDots ↔
      ∃ k, k < l.length ∧ q = joinDots (l.take (k + 1)) := by
  unfold nonNilPrefixes
  rw [List.map_map]
  simp only [List.mem_map, List.mem_range, Function.comp]
  constructor
  · rintro ⟨k, hk, rfl⟩
    exact ⟨k, hk, rfl⟩
  · rintro ⟨k, hk, rfl⟩
    exact ⟨k, hk, rfl⟩

end MapStore

namespace MapStore

theorem mget_singleton_some {κ α : Type} [DecidableEq κ] (k : κ) (v : α) (q : κ) (x : α)
    (h : mget [(k, v)] q = some x) : k = q ∧ v = x := by
  by_cases hk : k = q
  · simp only [mget, hk, if_true, Option.some.injEq] at h
    exact ⟨hk, h⟩
  · simp [mget, hk] at h

theorem registeredAt_mem_paths (st : Store) (q : String) (c : Nat)
    (hsync : st.itemSubscriberPaths = st.itemSubscribers.map Prod.fst)
    (h : registeredAt st q c) : q ∈ st.itemSubscriberPaths := by
  obtain ⟨cbs, hm, _⟩ := h
  rw [hsync]
  exact mem_keys_of_mget_some _ _ _ hm

theorem syncItemBatch_shape (st : Store) (a : PathArg) :
    st.syncItemBatch a =
      (prefixAcc "" (pathToStringArray a)).foldl (fun b cur => st.collectAt b cur)
        (st.itemSubscriberPaths.foldl
          (fun b subPath =>
            if subPath = pathToString a ∨ jsStartsWith subPath (pathToString a ++ ".") then
              st.collectAt b subPath
            else b)
          []) := rfl

/-- C1 (amended): for every registry whose path set mirrors the
registered identities, and every key or path whose first stringified
segment is nonempty (or which has a single segment), the working set of
`syncItem` is duplicate-free — so each distinct callback is invoked
exactly once per batch — and contains a callback exactly when the
callback is registered at the canonical identity of the path, at a
descendant identity (the identity followed by a dot and more), or at
the identity of a strict prefix of the segment sequence. -/
theorem syncItem_batch_spec (st : Store) (a : PathArg) (c : Nat)
    (hsync : st.itemSubscriberPaths = st.itemSubscribers.map Prod.fst)
    (hhead : ∀ s rest, pathToStringArray a = s :: rest → rest ≠ [] → s ≠ "") :
    (st.syncItemBatch a).Nodup ∧
      (c ∈ st.syncItemBatch a ↔ inNotifyUnion st a c) := by
  obtain ⟨s0, rest0, hsegs⟩ : ∃ s rest, pathToStringArray a = s :: rest := by
    cases a with
    | key k => exact ⟨k, [], rfl⟩
    | path p => exact ⟨p.top, p.rest.map Seg.toKey, rfl⟩
  have hpre : prefixAcc "" (pathToStringArray a) =
      (nonNilPrefixes (pathToStringArray a)).map joinDots := by
    rw [hsegs]
    apply prefixAcc_nil_eq
    rcases eq_or_ne rest0 [] with h | h
    · exact Or.inr h
    · exact Or.inl (hhead s0 rest0 hsegs h)
  rw [syncItemBatch_shape]
  constructor
  · exact nodup_collectFold _ _ _ (nodup_syncFold _ _ _ _ List.nodup_nil)
  · rw [mem_collectFold, mem_syncFold, hpre]
    simp only [List.not_mem_nil, false_or]
    constructor
    · rintro (⟨q, hq, hcond, hr⟩ | ⟨q, hq, hr⟩)
      · rcases hcond with rfl | hsw
        · exact Or.inl hr
        · obtain ⟨t, rfl⟩ := (jsStartsWith_iff _ _).mp hsw
          exact Or.inr (Or.inl ⟨t, hr⟩)
      · obtain ⟨k, hk, rfl⟩ := (mem_nonNilPrefixes_map _ _).mp hq
        rcases Nat.lt_or_ge (k + 1) (pathToStringArray a).length with hlt | hge
        · exact Or.inr (Or.inr ⟨k, hlt, hr⟩)
        · have hkeq : k + 1 = (pathToStringArray a).length := Nat.le_antisymm hk hge
          rw [hkeq, List.take_length] at hr
          exact Or.inl hr
    · rintro (hr | ⟨s, hr⟩ | ⟨k, hk, hr⟩)
      · exact Or.inl ⟨pathToString a, registeredAt_mem_paths st _ c hsync hr,
          Or.inl rfl, hr⟩
      · refine Or.inl ⟨pathToString a ++ "." ++ s,
          registeredAt_mem_paths st _ c hsync hr, Or.inr ?_, hr⟩
        exact (jsStartsWith_iff _ _).mpr ⟨s, rfl⟩
      · refine Or.inr ⟨joinDots ((pathToStringArray a).take (k + 1)), ?_, hr⟩
        exact (mem_nonNilPrefixes_map _ _).mpr ⟨k, Nat.lt_of_succ_lt hk, rfl⟩

/-- C1 (witness): concrete application with one subscriber at `a` and
the path `['a','b']`: the batch is duplicate-free and delivers exactly
the registered ancestor callback. -/
theorem syncItem_batch_spec_witness :
    (stAncestor.syncItemBatch aAB).Nodup ∧
      (0 ∈ stAncestor.syncItemBatch aAB ↔ inNotifyUnion stAncestor aAB 0) :=
  syncItem_batch_spec stAncestor aAB 0 rfl
    (by
      intro s rest h hne
      have hs : s = "a" := by
        have : pathToStringArray aAB = ["a", "b"] := rfl
        rw [this] at h
        exact (List.cons.inj h).1.symm
      rw [hs]
      decide)

/-- C1 (counterexample): with a subscriber registered at identity `b`
and the path `['', 'b']` (first segment empty), `syncItem` delivers
callback 0 although `b` is neither the canonical identity `.b`, nor a
descendant of it, nor a strict prefix-ancestor of the path: the
incremental prefix loop drops the leading separator. -/
theorem syncItem_empty_head_cex :
    stEmptyHead.syncItemBatch aEmptyHead = [0] ∧
      ¬ inNotifyUnion stEmptyHead aEmptyHead 0 := by
  refine ⟨rfl, ?_⟩
  rintro (⟨cbs, hm, _⟩ | ⟨s, cbs, hm, _⟩ | ⟨k, hk, cbs, hm, _⟩)
  · have h1 := (mget_singleton_some _ _ _ _ hm).1
    exact absurd h1 (by decide)
  · have h1 := (mget_singleton_some _ _ _ _ hm).1
    have h3 := congrArg String.length h1
    rw [String.length_append, String.length_append] at h3
    have e1 : ("b" : String).length = 1 := rfl
    have e2 : (pathToString aEmptyHead).length = 2 := rfl
    have e3 : ("." : String).length = 1 := rfl
    rw [e1, e2, e3] at h3
    omega
  · have hk0 : k = 0 := by
      have : (pathToStringArray aEmptyHead).length = 2 := rfl
      rw [this] at hk
      omega
    subst hk0
    have h1 := (mget_singleton_some _ _ _ _ hm).1
    exact absurd h1 (by decide)

end MapStore

namespace MapStore

theorem syncItemsBatch_shape (st : Store) (keys : List PathArg) :
    st.syncItemsBatch keys =
      keys.foldl
        (fun b a =>
          st.itemSubscriberPaths.foldl
            (fun b subPath =>
              if subPath = pathToString a ∨ jsStartsWith subPath (pathToString a ++ ".") then
                st.collectAt b subPath
              else b)
            b)
        [] := rfl

theorem mem_syncItemsFold (st : Store) (keys : List PathArg) (init : List Nat) (c : Nat) :
    c ∈ keys.foldl
        (fun b a =>
          st.itemSubscriberPaths.foldl
            (fun b subPath =>
              if subPath = pathToString a ∨ jsStartsWith subPath (pathToString a ++ ".") then
                st.collectAt b subPath
              else b)
            b)
        init ↔
      c ∈ init ∨ ∃ a ∈ keys, ∃ q ∈ st.itemSubscriberPaths,
        (q = pathToString a ∨ jsStartsWith q (pathToString a ++ ".")) ∧
          registeredAt st q c := by
  induction keys generalizing init with
  | nil => simp
  | cons hd tl ih =>
      rw [List.foldl_cons, ih, mem_syncFold]
      constructor
      · rintro ((h | ⟨q, hq, hcond, hr⟩) | ⟨a, ha, hrest⟩)
        · exact Or.inl h
        · exact Or.inr ⟨hd, List.mem_cons_self _ _, q, hq, hcond, hr⟩
        · exact Or.inr ⟨a, List.mem_cons_of_mem _ ha, hrest⟩
      · rintro (h | ⟨a, ha, hrest⟩)
        · exact Or.inl (Or.inl h)
        · rcases List.mem_cons.mp ha with rfl | ha
          · exact Or.inl (Or.inr hrest)
          · exact Or.inr ⟨a, ha, hrest⟩

theorem nodup_syncItemsFold (st : Store) (keys : List PathArg) (init : List Nat)
    (h : init.Nodup) :
    (keys.foldl
        (fun b a =>
          st.itemSubscriberPaths.foldl
            (fun b subPath =>
              if subPath = pathToString a ∨ jsStartsWith subPath (pathToString a ++ ".") then
                st.collectAt b subPath
              else b)
            b)
        init).Nodup := by
  induction keys generalizing init with
  | nil => exact h
  | cons hd tl ih =>
      rw [List.foldl_cons]
      exact ih _ (nodup_syncFold _ _ _ _ h)

/-- C7 (amended): for every registry whose path set mirrors the
registered identities and every list of keys or paths, the working set
of `syncItems` is duplicate-free — each distinct callback fires at most
once in the coalesced batch — and contains a callback exactly when, for
some listed path, the callback is registered at its canonical identity
or at a descendant identity.  Unlike `syncItem`, callbacks registered
at strict prefix-ancestors of a listed path are NOT part of the
delivered set. -/
theorem syncItems_batch_spec (st : Store) (keys : List PathArg) (c : Nat)
    (hsync : st.itemSubscriberPaths = st.itemSubscribers.map Prod.fst) :
    (st.syncItemsBatch keys).Nodup ∧
      (c ∈ st.syncItemsBatch keys ↔ inKeysUnion st keys c) := by
  rw [syncItemsBatch_shape]
  constructor
  · exact nodup_syncItemsFold _ _ _ List.nodup_nil
  · rw [mem_syncItemsFold]
    simp only [List.not_mem_nil, false_or]
    constructor
    · rintro ⟨a, ha, q, _, hcond, hr⟩
      rcases hcond with rfl | hsw
      · exact ⟨a, ha, Or.inl hr⟩
      · obtain ⟨t, rfl⟩ := (jsStartsWith_iff _ _).mp hsw
        exact ⟨a, ha, Or.inr ⟨t, hr⟩⟩
    · rintro ⟨a, ha, hr | ⟨s, hr⟩⟩
      · exact ⟨a, ha, pathToString a, registeredAt_mem_paths st _ c hsync hr,
          Or.inl rfl, hr⟩
      · refine ⟨a, ha, pathToString a ++ "." ++ s,
          registeredAt_mem_paths st _ c hsync hr, Or.inr ?_, hr⟩
        exact (jsStartsWith_iff _ _).mpr ⟨s, rfl⟩

/-- C7 (witness): concrete application with one subscriber at `a` and
the key list `['a']`: the batch is duplicate-free and delivers exactly
the exact-identity callback. -/
theorem syncItems_batch_spec_witness :
    (stAncestor.syncItemsBatch [.key "a"]).Nodup ∧
      (0 ∈ stAncestor.syncItemsBatch [.key "a"] ↔
        inKeysUnion stAncestor [.key "a"] 0) :=
  syncItems_batch_spec stAncestor [.key "a"] 0 rfl

/-- C7 (counterexample): with a subscriber registered at `a`,
`syncItems([['a','b']])` delivers nothing, although the callback is in
the union `syncItem(['a','b'])` computes (it sits at a strict
prefix-ancestor, and `syncItem` indeed delivers it): `syncItems` omits
the ancestor clause of the union. -/
theorem syncItems_no_ancestor_cex :
    stAncestor.syncItemsBatch [aAB] = [] ∧
      inNotifyUnion stAncestor aAB 0 ∧
      stAncestor.syncItemBatch aAB = [0] := by
  refine ⟨rfl, ?_, rfl⟩
  refine Or.inr (Or.inr ⟨0, ?_, [0], rfl, ?_⟩)
  · show 0 + 1 < (pathToStringArray aAB).length
    decide
  · simp

end MapStore

namespace MapStore

theorem batch_fold_spec (updates : List (String × Option UpdArg)) (s : Store)
    (ks : List String) :
    ∃ s2, updates.foldl batchStep (some (s, ks)) =
        some (s2, updates.foldl
          (fun a kv =>
            match kv.2 with
            | some _ => setAddStr a kv.1
            | none => a)
          ks) ∧
      ∀ k, mget s.map k = none → mget s2.map k = none := by
  induction updates generalizing s ks with
  | nil => exact ⟨s, rfl, fun _ h => h⟩
  | cons hd tl ih =>
      obtain ⟨k0, u0⟩ := hd
      cases u0 with
      | none =>
          simpa only [List.foldl_cons, batchStep] using ih s ks
      | some u =>
          cases hm : mget s.map k0 with
          | none =>
              have hupd : s.update (.key k0) u false = some (s, []) := by
                unfold Store.update
                simp [PathArg.topKey, hm]
              obtain ⟨s2, heq, hpres⟩ := ih s (setAddStr ks k0)
              refine ⟨s2, ?_, hpres⟩
              simpa only [List.foldl_cons, batchStep, hupd] using heq
          | some data =>
              have hupd : s.update (.key k0) u false =
                  some ({ s with map := mset s.map k0 (applyUpd u data) }, []) := by
                unfold Store.update
                simp [PathArg.topKey, PathArg.restSegs, hm]
              obtain ⟨s2, heq, hpres⟩ :=
                ih { s with map := mset s.map k0 (applyUpd u data) } (setAddStr ks k0)
              refine ⟨s2, ?_, ?_⟩
              · simpa only [List.foldl_cons, batchStep, hupd] using heq
              · intro k hk
                apply hpres
                have hne : k ≠ k0 := by
                  intro he
                  rw [he, hm] at hk
                  exact Option.noConfusion hk
                show mget (mset s.map k0 (applyUpd u data)) k = none
                rw [mget_mset_ne _ _ _ _ hne]
                exact hk

/-- C2 (amended): the single coalesced notification issued by
`batchUpdate` covers exactly the keys of the updates mapping with
defined update values, in insertion order — including keys that are
absent from the store, which are notified even though nothing was
updated for them; entries absent from the store stay absent (they are
never created by `batchUpdate`). -/
theorem batchUpdate_notified_keys (st st2 : Store)
    (updates : List (String × Option UpdArg)) (evs : List SyncEvent)
    (h : st.batchUpdate updates true = some (st2, evs)) :
    evs = [.itemsSync ((definedKeys updates).map PathArg.key)] ∧
      ∀ k, mget st.map k = none → mget st2.map k = none := by
  obtain ⟨s2, heq, hpres⟩ := batch_fold_spec updates st []
  unfold Store.batchUpdate at h
  rw [heq] at h
  simp only [if_true, Option.some.injEq, Prod.mk.injEq] at h
  obtain ⟨h1, h2⟩ := h
  subst h1
  constructor
  · rw [← h2]
    rfl
  · exact hpres

/-- C2 (witness): concrete application at a store holding only `a`,
with updates for `a` and the absent `b`: the emitted notification set
is the defined-update keys, and `b` stays absent. -/
theorem batchUpdate_notified_keys_witness :
    stBatch.batchUpdate updsBatch true =
        some (stBatch2, [.itemsSync [.key "a", .key "b"]]) ∧
      ([SyncEvent.itemsSync [PathArg.key "a", PathArg.key "b"]] : List SyncEvent) =
        [.itemsSync ((definedKeys updsBatch).map PathArg.key)] ∧
      mget stBatch2.map "b" = none :=
  ⟨rfl,
   (batchUpdate_notified_keys stBatch stBatch2 updsBatch
      [.itemsSync [.key "a", .key "b"]] rfl).1,
   (batchUpdate_notified_keys stBatch stBatch2 updsBatch
      [.itemsSync [.key "a", .key "b"]] rfl).2 "b" rfl⟩

/-- C2 (counterexample): with only `a` present and updates for both `a`
and `b`, the coalesced notification passed to `syncItems` names both
keys, not only the present key `a` as the claim states. -/
theorem batchUpdate_absent_key_cex :
    stBatch.batchUpdate updsBatch true =
        some (stBatch2, [.itemsSync [.key "a", .key "b"]]) ∧
      mget stBatch.map "b" = none ∧
      ([SyncEvent.itemsSync [PathArg.key "a", PathArg.key "b"]] : List SyncEvent) ≠
        [.itemsSync [PathArg.key "a"]] :=
  ⟨rfl, rfl, by decide⟩

end MapStore

namespace MapStore

/-- C4: `setMap(newMap, notify = true)` replaces the entire backing
mapping and fully clears all four subscriber registries — no previously
registered path, size or keys subscriber remains registered — and then
fires each of the three notification channels (full item sweep, size,
keys) exactly once. -/
theorem setMap_clears_and_fires (st : Store) (m : List (String × JVal)) :
    (st.setMap m true).1.map = m ∧
      (st.setMap m true).1.itemSubscribers = [] ∧
      (st.setMap m true).1.itemSubscriberPaths = [] ∧
      (st.setMap m true).1.sizeSubscribers = [] ∧
      (st.setMap m true).1.keysSubscribers = [] ∧
      (st.setMap m true).2 = [.mapSync, .sizeSync, .keysSync] ∧
      (st.setMap m true).2.count .mapSync = 1 ∧
      (st.setMap m true).2.count .sizeSync = 1 ∧
      (st.setMap m true).2.count .keysSync = 1 :=
  ⟨rfl, rfl, rfl, rfl, rfl, rfl, rfl, rfl, rfl⟩

/-- C6: evaluation of the fallback scenario at the failing input.  With
initial state `{user: {name: 'John', roles: []}}`, object mode and
fallback `{user: {name: 'Anon', roles: ['guest']}}`, the reads before
removal return the live values, but after `remove('user')` both nested
reads return `undefined`, not the fallback leaves `'Anon'` and
`['guest']` the claim states: `getNestedFallbackValue` walks the
fallback tree starting at its root with the segments after the first,
never descending into the per-key entry `fallback['user']`, which
contradicts the per-key resolution its bare-key counterpart
`getFallbackValue` performs in object mode. -/
theorem nested_fallback_scenario_eval :
    stScenario.get (.path ⟨"user", [.str "name"]⟩) = .str "John" ∧
      stScenario.get (.path ⟨"user", [.str "roles"]⟩) = .arr [] ∧
      ((stScenario.remove "user" true).1).get (.path ⟨"user", [.str "name"]⟩) = .jundefined ∧
      ((stScenario.remove "user" true).1).get (.path ⟨"user", [.str "roles"]⟩) = .jundefined ∧
      JVal.jundefined ≠ .str "Anon" ∧
      JVal.jundefined ≠ .arr [.str "guest"] := by
  refine ⟨rfl, rfl, rfl, rfl, ?_, ?_⟩ <;> simp

theorem setMapFromObject_false (st : Store) (entries : List (String × JVal)) :
    st.setMapFromObject entries false =
      ({ st with map := entries.foldl (fun m kv => mset m kv.1 kv.2) [] }, []) := rfl

theorem handleDevToolsJump_some (st : Store) (entries : List (String × JVal)) :
    st.handleDevToolsJump (some entries) =
      ({ st with map := entries.foldl (fun m kv => mset m kv.1 kv.2) [] }, [.mapSync]) := rfl

/-- C8: on a devtools `ROLLBACK`/`JUMP_TO_STATE`/`JUMP_TO_ACTION`
message, a failed parse of the attached state string leaves the store
entirely unchanged and emits nothing (the exception is caught), while a
successful parse that denotes exactly the current entries (a round-trip
through serialisation, keys being unique) leaves the live state equal
to the original, no registry is touched, and one full item sweep
follows. -/
theorem devtools_jump_atomic (st : Store) (parsed : Option (List (String × JVal))) :
    (parsed = none → st.handleDevToolsJump parsed = (st, [])) ∧
      (∀ entries, parsed = some entries → entries = st.map →
        (st.map.map Prod.fst).Nodup →
          (st.handleDevToolsJump parsed).1.map = st.map ∧
          (st.handleDevToolsJump parsed).1.itemSubscribers = st.itemSubscribers ∧
          (st.handleDevToolsJump parsed).1.itemSubscriberPaths = st.itemSubscriberPaths ∧
          (st.handleDevToolsJump parsed).1.sizeSubscribers = st.sizeSubscribers ∧
          (st.handleDevToolsJump parsed).1.keysSubscribers = st.keysSubscribers ∧
          (st.handleDevToolsJump parsed).2 = [.mapSync]) := by
  constructor
  · rintro rfl
    rfl
  · rintro entries rfl rfl hnd
    have hre : st.map.foldl (fun m kv => mset m kv.1 kv.2) [] = st.map := by
      have h := foldl_mset_extend st.map [] (fun kv _ => rfl) hnd
      simpa using h
    rw [handleDevToolsJump_some]
    exact ⟨hre, rfl, rfl, rfl, rfl, rfl⟩

/-- C8 (witness): concrete application at a store with one entry and
one path subscriber: a failed parse changes nothing, a round-tripped
parse restores the same map, keeps the subscriber, and emits one full
sweep. -/
theorem devtools_jump_atomic_witness :
    stJump.handleDevToolsJump none = (stJump, []) ∧
      (stJump.handleDevToolsJump (some [("x", .num 1)])).1.map = stJump.map ∧
      (stJump.handleDevToolsJump (some [("x", .num 1)])).1.itemSubscribers =
        stJump.itemSubscribers ∧
      (stJump.handleDevToolsJump (some [("x", .num 1)])).2 = [.mapSync] :=
  ⟨(devtools_jump_atomic stJump none).1 rfl,
   ((devtools_jump_atomic stJump (some [("x", .num 1)])).2 [("x", .num 1)] rfl rfl
      (by decide)).1,
   ((devtools_jump_atomic stJump (some [("x", .num 1)])).2 [("x", .num 1)] rfl rfl
      (by decide)).2.1,
   ((devtools_jump_atomic stJump (some [("x", .num 1)])).2 [("x", .num 1)] rfl rfl
      (by decide)).2.2.2.2.2⟩

theorem mget_some_mem {κ α : Type} [DecidableEq κ] (l : List (κ × α)) (k : κ) (v : α)
    (h : mget l k = some v) : (k, v) ∈ l := by
  induction l with
  | nil => simp [mget] at h
  | cons hd tl ih =>
      obtain ⟨a, b⟩ := hd
      by_cases hk : a = k
      · subst hk
        have hb : some b = some v := by simpa [mget] using h
        injection hb with hb
        subst hb
        exact List.mem_cons_self _ _
      · simp only [mget, hk, if_false] at h
        exact List.mem_cons_of_mem _ (ih h)

theorem setAddNat_ne_nil (l : List Nat) (c : Nat) : setAddNat l c ≠ [] := by
  by_cases h : c ∈ l
  · simp only [setAddNat, h, if_true]
    intro he
    rw [he] at h
    exact absurd h (List.not_mem_nil c)
  · simp [setAddNat, h]

/-- C9: every path identity present in the item-subscriber registry
maps to a nonempty callback set: the invariant holds for a freshly
constructed store and is preserved by `addSubscriber`,
`removeSubscriber` (which drops an identity when its last callback
goes) and `setMap`; consequently the registry is no larger than the
number of identities that still have a subscribed callback. -/
theorem registry_nonempty_invariant :
    (∀ (im : List (String × JVal)) (fb : Option JVal) (ty : StoreType),
        (Store.init im fb ty).NonemptyRegistry) ∧
      (∀ (st : Store) (p : JPath) (c : Nat),
        st.NonemptyRegistry → (st.addSubscriber p c).NonemptyRegistry) ∧
      (∀ (st : Store) (p : JPath) (c : Nat),
        st.NonemptyRegistry → (st.removeSubscriber p c).NonemptyRegistry) ∧
      (∀ (st : Store) (m : List (String × JVal)) (n : Bool),
        st.NonemptyRegistry → ((st.setMap m n).1).NonemptyRegistry) ∧
      (∀ (st : Store), st.NonemptyRegistry →
        st.itemSubscribers.length ≤
          (st.itemSubscribers.filter (fun x => !x.2.isEmpty)).length) := by
  refine ⟨?_, ?_, ?_, ?_, ?_⟩
  · intro im fb ty x hx
    exact absurd hx (List.not_mem_nil x)
  · intro st p c hinv x hx
    unfold Store.addSubscriber at hx
    cases hm : mget st.itemSubscribers (pathToString (.path p)) with
    | some cbs =>
        simp only [hm] at hx
        rcases mem_of_mem_mset _ _ _ _ hx with rfl | hx
        · exact setAddNat_ne_nil _ _
        · exact hinv x hx
    | none =>
        simp only [hm] at hx
        rcases List.mem_append.mp hx with hx | hx
        · exact hinv x hx
        · rcases List.mem_singleton.mp hx with rfl
          show setAddNat [] c ≠ []
          exact setAddNat_ne_nil _ _
  · intro st p c hinv x hx
    unfold Store.removeSubscriber at hx
    cases hm : mget st.itemSubscribers (pathToString (.path p)) with
    | none =>
        simp only [hm] at hx
        exact hinv x hx
    | some cbs =>
        simp only [hm] at hx
        by_cases he : cbs.erase c = []
        · rw [if_pos he] at hx
          simp only [mdelete] at hx
          exact hinv x (List.mem_of_mem_filter hx)
        · rw [if_neg he] at hx
          simp only at hx
          rcases mem_of_mem_mset _ _ _ _ hx with rfl | hx
          · exact he
          · exact hinv x hx
  · intro st m n hinv x hx
    cases n with
    | true => exact absurd hx (List.not_mem_nil x)
    | false => exact hinv x hx
  · intro st hinv
    have : st.itemSubscribers.filter (fun x => !x.2.isEmpty) = st.itemSubscribers := by
      rw [List.filter_eq_self]
      intro x hx
      have := hinv x hx
      cases hv : x.2 with
      | nil => exact absurd hv this
      | cons hd tl => simp [hv]
    rw [this]

/-- C9 (witness): concrete applications of every conjunct, with the
invariant discharged on a one-entry registry. -/
theorem registry_nonempty_invariant_witness :
    (Store.init [] none .map).NonemptyRegistry ∧
      (stAncestor.addSubscriber ⟨"a", [.str "b"]⟩ 5).NonemptyRegistry ∧
      (stAncestor.removeSubscriber ⟨"a", []⟩ 0).NonemptyRegistry ∧
      ((stAncestor.setMap [] true).1).NonemptyRegistry ∧
      stAncestor.itemSubscribers.length ≤
        (stAncestor.itemSubscribers.filter (fun x => !x.2.isEmpty)).length :=
  ⟨registry_nonempty_invariant.1 [] none .map,
   registry_nonempty_invariant.2.1 stAncestor ⟨"a", [.str "b"]⟩ 5
     (by show ∀ x ∈ stAncestor.itemSubscribers, x.2 ≠ []; decide),
   registry_nonempty_invariant.2.2.1 stAncestor ⟨"a", []⟩ 0
     (by show ∀ x ∈ stAncestor.itemSubscribers, x.2 ≠ []; decide),
   registry_nonempty_invariant.2.2.2.1 stAncestor [] true
     (by show ∀ x ∈ stAncestor.itemSubscribers, x.2 ≠ []; decide),
   registry_nonempty_invariant.2.2.2.2 stAncestor
     (by show ∀ x ∈ stAncestor.itemSubscribers, x.2 ≠ []; decide)⟩

/-- C10: a top-level entry holding `null`, read through the bare-key
form of `get`, resolves to the fallback-derived value, and the read is
indistinguishable from the read after removing the entry: through
`get`, a stored top-level `null` behaves like an absent entry. -/
theorem get_null_top_fallback (st : Store) (k : String)
    (h : mget st.map k = some .jnull) :
    st.get (.key k) = st.getFallbackValue k ∧
      st.get (.key k) = ((st.remove k true).1).get (.key k) := by
  have e1 : st.get (.key k) = st.getFallbackValue k := by
    show (match mget st.map k with
      | none => st.getFallbackValue k
      | some .jundefined => st.getFallbackValue k
      | some .jnull => st.getFallbackValue k
      | some v => v) = st.getFallbackValue k
    rw [h]
  have e2 : ((st.remove k true).1).get (.key k) = st.getFallbackValue k := by
    show (match mget (mdelete st.map k) k with
      | none => st.getFallbackValue k
      | some .jundefined => st.getFallbackValue k
      | some .jnull => st.getFallbackValue k
      | some v => v) = st.getFallbackValue k
    rw [mget_mdelete_self]
  exact ⟨e1, e1.trans e2.symm⟩

/-- C10 (witness): concrete application at a store holding `null` at
`a` with fallback 42: both reads give the fallback. -/
theorem get_null_top_fallback_witness :
    (stNullA.get (.key "a") = stNullA.getFallbackValue "a" ∧
      stNullA.get (.key "a") = ((stNullA.remove "a" true).1).get (.key "a")) ∧
      stNullA.get (.key "a") = .num 42 :=
  ⟨get_null_top_fallback stNullA "a" rfl, rfl⟩

end MapStore

namespace MapStore

theorem listSetPad_get (l : List JVal) (i : Nat) (v : JVal) :
    (listSetPad l i v).get? i = some v := by
  unfold listSetPad
  by_cases h : i < l.length
  · rw [if_pos h]
    simp [List.get?_eq_getElem?, List.getElem?_set_self, h]
  · rw [if_neg h]
    push_neg at h
    rw [List.append_assoc, List.get?_append_right h]
    rw [List.get?_append_right (by simp)]
    simp

theorem jsSet_shape (v : JVal) (seg : Seg) (x v2 : JVal) (h : jsSet v seg x = some v2) :
    (∃ f, v2 = .obj f) ∨ ∃ e, v2 = .arr e := by
  cases v with
  | obj fields =>
      refine Or.inl ⟨mset fields seg.toKey x, ?_⟩
      have h2 : some (JVal.obj (mset fields seg.toKey x)) = some v2 := h
      injection h2 with h2
      exact h2.symm
  | arr elems =>
      cases hs : segIndex seg with
      | none =>
          have h2 : (none : Option JVal) = some v2 := by
            rw [show jsSet (.arr elems) seg x =
              (match segIndex seg with
                | some i => some (.arr (listSetPad elems i x))
                | none => none) from rfl, hs] at h
            exact h
          exact Option.noConfusion h2
      | some i =>
          refine Or.inr ⟨listSetPad elems i x, ?_⟩
          have h2 : some (JVal.arr (listSetPad elems i x)) = some v2 := by
            rw [show jsSet (.arr elems) seg x =
              (match segIndex seg with
                | some i => some (.arr (listSetPad elems i x))
                | none => none) from rfl, hs] at h
            exact h
          injection h2 with h2
          exact h2.symm
  | jundefined => exact Option.noConfusion h
  | jnull => exact Option.noConfusion h
  | jbool b => exact Option.noConfusion h
  | num n => exact Option.noConfusion h
  | str s => exact Option.noConfusion h

theorem jsSet_jsGet (v : JVal) (seg : Seg) (x v2 : JVal) (h : jsSet v seg x = some v2) :
    jsGet v2 seg = x := by
  cases v with
  | obj fields =>
      have h2 : some (JVal.obj (mset fields seg.toKey x)) = some v2 := h
      injection h2 with h2
      rw [← h2]
      show (mget (mset fields seg.toKey x) seg.toKey).getD .jundefined = x
      rw [mget_mset_self]
      rfl
  | arr elems =>
      cases hs : segIndex seg with
      | none =>
          have h2 : (none : Option JVal) = some v2 := by
            rw [show jsSet (.arr elems) seg x =
              (match segIndex seg with
                | some i => some (.arr (listSetPad elems i x))
                | none => none) from rfl, hs] at h
            exact h
          exact Option.noConfusion h2
      | some i =>
          have h2 : some (JVal.arr (listSetPad elems i x)) = some v2 := by
            rw [show jsSet (.arr elems) seg x =
              (match segIndex seg with
                | some i => some (.arr (listSetPad elems i x))
                | none => none) from rfl, hs] at h
            exact h
          injection h2 with h2
          rw [← h2]
          show (match segIndex seg with
            | some j => ((listSetPad elems i x).get? j).getD .jundefined
            | none => .jundefined) = x
          rw [hs]
          show ((listSetPad elems i x).get? i).getD .jundefined = x
          rw [listSetPad_get]
          rfl
  | jundefined => exact Option.noConfusion h
  | jnull => exact Option.noConfusion h
  | jbool b => exact Option.noConfusion h
  | num n => exact Option.noConfusion h
  | str s => exact Option.noConfusion h

theorem getScopedGo_nil (st : Store) (p : JPath) (v : JVal) (hv : v ≠ .jundefined) :
    st.getScopedGo p v [] = v := by
  cases v <;> first | rfl | exact absurd rfl hv

theorem getScopedGo_cons_obj (st : Store) (p : JPath) (f : List (String × JVal))
    (seg : Seg) (rest : List Seg) :
    st.getScopedGo p (.obj f) (seg :: rest) =
      st.getScopedGo p (jsGet (.obj f) seg) rest := rfl

theorem getScopedGo_cons_arr (st : Store) (p : JPath) (e : List JVal)
    (seg : Seg) (rest : List Seg) :
    st.getScopedGo p (.arr e) (seg :: rest) =
      st.getScopedGo p (jsGet (.arr e) seg) rest := rfl

theorem setNested_cons_cons (v : JVal) (seg seg2 : Seg) (rest : List Seg) (item : JVal)
    (h1 : v ≠ .jundefined) (h2 : v ≠ .jnull) :
    setNested v (seg :: seg2 :: rest) item =
      (match setNested
          (match jsGet v seg with
            | .jundefined => JVal.obj []
            | c => c)
          (seg2 :: rest) item with
        | none => none
        | some child2 => jsSet v seg child2) := by
  cases v <;> first | rfl | exact absurd rfl h1 | exact absurd rfl h2

theorem setNested_get (st : Store) (p : JPath) (item : JVal) (hitem : item ≠ .jundefined) :
    ∀ (segs : List Seg) (v v2 : JVal), segs ≠ [] →
      setNested v segs item = some v2 →
      st.getScopedGo p v2 segs = item := by
  intro segs
  induction segs with
  | nil => exact fun v v2 hne _ => absurd rfl hne
  | cons seg rest ih =>
      intro v v2 _ h
      cases rest with
      | nil =>
          have h1 : jsSet v seg item = some v2 := h
          rcases jsSet_shape _ _ _ _ h1 with ⟨f, rfl⟩ | ⟨e, rfl⟩
          · rw [getScopedGo_cons_obj, jsSet_jsGet _ _ _ _ h1,
              getScopedGo_nil _ _ _ hitem]
          · rw [getScopedGo_cons_arr, jsSet_jsGet _ _ _ _ h1,
              getScopedGo_nil _ _ _ hitem]
      | cons seg2 rest2 =>
          by_cases hv1 : v = .jundefined
          · subst hv1
            exact Option.noConfusion h
          by_cases hv2 : v = .jnull
          · subst hv2
            exact Option.noConfusion h
          rw [setNested_cons_cons _ _ _ _ _ hv1 hv2] at h
          cases hs : setNested
              (match jsGet v seg with
                | .jundefined => JVal.obj []
                | c => c)
              (seg2 :: rest2) item with
          | none =>
              rw [hs] at h
              exact Option.noConfusion h
          | some c2 =>
              rw [hs] at h
              rcases jsSet_shape _ _ _ _ h with ⟨f, rfl⟩ | ⟨e, rfl⟩
              · rw [getScopedGo_cons_obj, jsSet_jsGet _ _ _ _ h]
                exact ih _ _ (by simp) hs
              · rw [getScopedGo_cons_arr, jsSet_jsGet _ _ _ _ h]
                exact ih _ _ (by simp) hs

theorem set_path_cons_eq (st : Store) (ptop : String) (seg : Seg) (rest2 : List Seg)
    (v d : JVal) (hd : mget st.map ptop = some d) (hdu : d ≠ .jundefined) :
    st.set (.path ⟨ptop, seg :: rest2⟩) v true =
      (match setNested d (seg :: rest2) v with
        | none => none
        | some data2 =>
            some ({ st with map := mset st.map ptop data2 },
              [.itemSync (.path ⟨ptop, seg :: rest2⟩)])) := by
  have hred : st.set (.path ⟨ptop, seg :: rest2⟩) v true =
      (match mget st.map ptop with
        | none => some (st, [])
        | some .jundefined => some (st, [])
        | some data =>
            match setNested data (seg :: rest2) v with
            | none => none
            | some data2 =>
                some ({ st with map := mset st.map ptop data2 },
                  [.itemSync (.path ⟨ptop, seg :: rest2⟩)])) := rfl
  rw [hred, hd]
  cases d <;> first | rfl | exact absurd rfl hdu

/-- C5 (amended): `set(P, V)` followed by `get(P)` returns `V` when the
assignment completes without a thrown `TypeError` and: `V` is not
`undefined`; for the bare-key form, `V` is additionally not `null` (a
stored top-level `null` or `undefined` reads back as the fallback); for
paths with segments after the top-level key, the top-level entry must
be present with a defined value (the claim already assumes presence —
the source treats a stored `undefined` as absent and aborts). -/
theorem set_get_roundtrip (st st2 : Store) (a : PathArg) (v : JVal)
    (evs : List SyncEvent)
    (hv : v ≠ .jundefined)
    (hkey : ∀ k, a = .key k → v ≠ .jnull)
    (htop : ∀ p, a = .path p → p.rest ≠ [] →
        ∃ d, mget st.map p.top = some d ∧ d ≠ .jundefined)
    (hset : st.set a v true = some (st2, evs)) :
    st2.get a = v := by
  cases a with
  | key k =>
      have hnull := hkey k rfl
      have hred : st.set (.key k) v true =
          some ({ st with map := mset st.map k v },
            [.itemSync (.key k), .sizeSync, .keysSync]) := rfl
      rw [hred] at hset
      simp only [Option.some.injEq, Prod.mk.injEq] at hset
      obtain ⟨h1, _⟩ := hset
      subst h1
      show (match mget (mset st.map k v) k with
        | none => st.getFallbackValue k
        | some .jundefined => st.getFallbackValue k
        | some .jnull => st.getFallbackValue k
        | some w => w) = v
      rw [mget_mset_self]
      cases v <;> first | rfl | exact absurd rfl hv | exact absurd rfl hnull
  | path p =>
      obtain ⟨ptop, prest⟩ := p
      cases prest with
      | nil =>
          have hred : st.set (.path ⟨ptop, []⟩) v true =
              some ({ st with map := mset st.map ptop v },
                [.itemSync (.path ⟨ptop, []⟩), .sizeSync, .keysSync]) := rfl
          rw [hred] at hset
          simp only [Option.some.injEq, Prod.mk.injEq] at hset
          obtain ⟨h1, _⟩ := hset
          subst h1
          show (match mget (mset st.map ptop v) ptop with
            | none => Store.getNestedFallbackValue
                { st with map := mset st.map ptop v } ⟨ptop, []⟩
            | some w => Store.getScopedGo
                { st with map := mset st.map ptop v } ⟨ptop, []⟩ w []) = v
          rw [mget_mset_self]
          exact getScopedGo_nil _ _ _ hv
      | cons seg rest2 =>
          obtain ⟨d, hd, hdu⟩ := htop ⟨ptop, seg :: rest2⟩ rfl (by simp)
          rw [set_path_cons_eq st ptop seg rest2 v d hd hdu] at hset
          cases hs : setNested d (seg :: rest2) v with
          | none =>
              rw [hs] at hset
              exact Option.noConfusion hset
          | some d2 =>
              rw [hs] at hset
              simp only [Option.some.injEq, Prod.mk.injEq] at hset
              obtain ⟨h1, _⟩ := hset
              subst h1
              show (match mget (mset st.map ptop d2) ptop with
                | none => Store.getNestedFallbackValue
                    { st with map := mset st.map ptop d2 } ⟨ptop, seg :: rest2⟩
                | some w => Store.getScopedGo
                    { st with map := mset st.map ptop d2 } ⟨ptop, seg :: rest2⟩
                    w (seg :: rest2)) = v
              rw [mget_mset_self]
              exact setNested_get _ _ _ hv (seg :: rest2) d d2 (by simp) hs

/-- C5 (witness): concrete application at the store `{a: {}}` and the
nested path `['a','b']` with value 7: the set succeeds and the read
returns 7. -/
theorem set_get_roundtrip_witness :
    stObjA.set aAB (.num 7) true = some (stObjASet, [.itemSync aAB]) ∧
      stObjASet.get aAB = .num 7 :=
  ⟨rfl,
   set_get_roundtrip stObjA stObjASet aAB (.num 7) [.itemSync aAB]
     (by simp)
     (fun _ h => by cases h)
     (fun q hq _ => by
        cases hq
        exact ⟨.obj [], rfl, by simp⟩)
     rfl⟩

/-- C5 (counterexample): with no fallback configured, `set('a', null)`
followed by `get('a')` returns `undefined`, not `null` (the claim
quantifies over every value); and with the primitive 5 stored at `a`
(top-level key present), `set(['a','b'], 1)` throws a `TypeError`
instead of establishing a readable value. -/
theorem set_get_cex :
    ((stEmpty.set (.key "a") .jnull true).map (fun r => r.1.get (.key "a"))) =
        some .jundefined ∧
      JVal.jundefined ≠ .jnull ∧
      stPrimA.set aAB (.num 1) true = none ∧
      mget stPrimA.map "a" = some (.num 5) := by
  refine ⟨rfl, ?_, rfl, rfl⟩
  simp

end MapStore

namespace HeapModel

theorem mget_next_none (h : Heap) (hwf : h.WF) :
    MapStore.mget h.objs h.next = none := by
  cases hm : MapStore.mget h.objs h.next with
  | none => rfl
  | some o =>
      have h1 := hwf _ (MapStore.mget_some_mem _ _ _ hm)
      exact absurd h1 (lt_irrefl _)

theorem mget_preserve_one (objs ext : List (Nat × Obj)) (b : Nat) (nob : Obj)
    (a : Nat) (o : Obj) (ha : MapStore.mget objs a = some o) (hab : a ≠ b) :
    MapStore.mget (MapStore.mset (objs ++ ext) b nob) a = some o := by
  rw [MapStore.mget_mset_ne _ _ _ _ hab]
  exact MapStore.mget_append_some _ _ _ _ ha

theorem updateNested_nil_eq (st : HStore) (top lastKey : String) (item : UArg)
    (data : HVal) (hm : MapStore.mget st.map top = some data) :
    st.updateNested top [] lastKey item =
      (match (st.heap.alloc (heapSpread st.heap data)).1.assignLast
          (.ref st.heap.next) lastKey item with
        | none => none
        | some h2 => some ⟨MapStore.mset st.map top (.ref st.heap.next), h2⟩) := by
  unfold HStore.updateNested
  rw [hm]
  rfl

/-- C3 (amended): for a nested `update` on a path of length exactly 2
(one segment after the top-level key), the new value is assigned onto
the freshly allocated shallow clone of the current top-level value, so
no previously allocated heap object — in particular nothing reachable
from a pre-update snapshot of the top-level value — is mutated.  For
longer paths the source clones only the top level and mutates the
original intermediate objects in place. -/
theorem update_depth2_copy_on_write (st : HStore) (top lastKey : String) (item : UArg)
    (st2 : HStore) (hwf : st.heap.WF)
    (hupd : st.updateNested top [] lastKey item = some st2) :
    ∀ a o, MapStore.mget st.heap.objs a = some o →
      MapStore.mget st2.heap.objs a = some o := by
  intro a o ha
  have hane : a ≠ st.heap.next := by
    have h1 := hwf _ (MapStore.mget_some_mem _ _ _ ha)
    omega
  cases hm : MapStore.mget st.map top with
  | none =>
      unfold HStore.updateNested at hupd
      rw [hm] at hupd
      exact Option.noConfusion hupd
  | some data =>
      rw [updateNested_nil_eq st top lastKey item data hm] at hupd
      have hn : MapStore.mget (st.heap.alloc (heapSpread st.heap data)).1.objs
          st.heap.next = some (heapSpread st.heap data) := by
        show MapStore.mget
          (st.heap.objs ++ [(st.heap.next, heapSpread st.heap data)]) st.heap.next = _
        rw [MapStore.mget_append_none _ _ _ (mget_next_none st.heap hwf)]
        simp [MapStore.mget]
      unfold Heap.assignLast at hupd
      simp only [hn] at hupd
      cases item with
      | fn f =>
          simp only [Option.some.injEq] at hupd
          subst hupd
          exact mget_preserve_one st.heap.objs _ _ _ _ _ ha hane
      | val v =>
          cases v with
          | ref ia =>
              simp only [Option.some.injEq] at hupd
              subst hupd
              exact mget_preserve_one
                (st.heap.objs ++ [(st.heap.next, heapSpread st.heap data)]) _ _ _ _ _
                (MapStore.mget_append_some _ _ _ _ ha) hane
          | jundefined =>
              simp only [Option.some.injEq] at hupd
              subst hupd
              exact mget_preserve_one st.heap.objs _ _ _ _ _ ha hane
          | hnull =>
              simp only [Option.some.injEq] at hupd
              subst hupd
              exact mget_preserve_one st.heap.objs _ _ _ _ _ ha hane
          | prim n =>
              simp only [Option.some.injEq] at hupd
              subst hupd
              exact mget_preserve_one st.heap.objs _ _ _ _ _ ha hane

/-- C3 (witness): concrete application at `{a: {b: 1}}` replacing
field `b` of the clone with 2: the update succeeds and the pre-existing
object at address 0 is unchanged. -/
theorem update_depth2_copy_on_write_witness :
    hstShallow.updateNested "a" [] "b" (.val (.prim 2)) =
        some ⟨[("a", .ref 1)], ⟨[(0, [("b", .prim 1)]), (1, [("b", .prim 2)])], 2⟩⟩ ∧
      MapStore.mget
          (⟨[("a", .ref 1)],
            ⟨[(0, [("b", .prim 1)]), (1, [("b", .prim 2)])], 2⟩⟩ : HStore).heap.objs 0 =
        some [("b", .prim 1)] :=
  ⟨rfl,
   update_depth2_copy_on_write hstShallow "a" "b" (.val (.prim 2))
     ⟨[("a", .ref 1)], ⟨[(0, [("b", .prim 1)]), (1, [("b", .prim 2)])], 2⟩⟩
     (by show ∀ p ∈ hstShallow.heap.objs, p.1 < hstShallow.heap.next; decide)
     rfl 0 [("b", .prim 1)] rfl⟩

/-- C3 (counterexample): on the path `['a','b','c']` (length 3) over
the state `{a: {b: {c: 0}}}` with explicit sharing, `update` mutates
the object at address 1 in place — an object reachable from the
pre-update snapshot of the top-level value at address 0 — because only
the top level is shallow-cloned, contradicting the claim that every
ancestor along the path is cloned. -/
theorem update_deep_path_mutates_cex :
    hstDeep.updateNested "a" ["b"] "c" (.val (.prim 9)) =
        some ⟨[("a", .ref 2)],
          ⟨[(0, [("b", .ref 1)]), (1, [("c", .prim 9)]), (2, [("b", .ref 1)])], 3⟩⟩ ∧
      MapStore.mget hstDeep.map "a" = some (.ref 0) ∧
      Reaches hstDeep.heap 0 1 ∧
      MapStore.mget hstDeep.heap.objs 1 = some [("c", .prim 0)] ∧
      MapStore.mget
          (⟨[(0, [("b", .ref 1)]), (1, [("c", .prim 9)]), (2, [("b", .ref 1)])], 3⟩ :
            Heap).objs 1 =
        some [("c", .prim 9)] ∧
      ([("c", .prim 0)] : Obj) ≠ [("c", .prim 9)] := by
  refine ⟨rfl, rfl, ?_, rfl, rfl, by decide⟩
  exact Reaches.step 0 1 1 [("b", .ref 1)] "b" rfl rfl (Reaches.refl 1)

end HeapModel
